import Mathlib

/-
Verification of the bandersnatch asynchronous filesystem utility layer
(`src/bandersnatch/utils.py`, `src/bandersnatch/abc/io.py`,
`src/bandersnatch/abc/filelock.py`) against its natural-language
specification.  The Python functions are shallowly embedded as Lean
definitions; filesystem state is an association list from path strings to
file data (content bytes plus permission mode).
-/

set_option autoImplicit false

namespace Bandersnatch

/-! ## POSIX path helpers

Embeddings of `os.path.basename`, `os.path.dirname` and `os.path.join`
(the parts of `posixpath` that `rewrite` and `tempfile` use).  Paths are
strings; the list-of-characters versions carry the proofs. -/

/-- Characters after the last slash (`posixpath.basename`): take the longest
slash-free suffix. -/
def baseNameL (l : List Char) : List Char :=
  (l.reverse.takeWhile (fun c => c != '/')).reverse

/-- Prefix of the path up to and including the last slash, empty when the
path has no slash (the `p[:i]` with `i = p.rfind(sep) + 1` of
`posixpath.dirname`). -/
def headPartL (l : List Char) : List Char :=
  (l.reverse.dropWhile (fun c => c != '/')).reverse

/-- Drop trailing slashes (`head.rstrip(sep)`). -/
def rstripSlashL (l : List Char) : List Char :=
  (l.reverse.dropWhile (fun c => c == '/')).reverse

/-- Embedding of `posixpath.dirname`: the prefix before the last slash,
with trailing slashes stripped unless the prefix consists only of
slashes. -/
def dirNameL (l : List Char) : List Char :=
  let h := headPartL l
  if h.all (fun c => c == '/') then h else rstripSlashL h

/-- Embedding of `posixpath.join a b` for two components: if `b` is
absolute it wins; otherwise a separator is inserted unless `a` is empty or
already ends with one. -/
def joinL (a b : List Char) : List Char :=
  if b.head? = some '/' then b
  else if a = [] ∨ a.getLast? = some '/' then a ++ b
  else a ++ '/' :: b

/-- String form of `os.path.basename`. -/
def basename (p : String) : String := String.mk (baseNameL p.data)

/-- String form of `os.path.dirname`. -/
def dirname (p : String) : String := String.mk (dirNameL p.data)

/-- String form of `os.path.join`. -/
def posixJoin (a b : String) : String := String.mk (joinL a.data b.data)

/-! ## Filesystem model

A filesystem is a finite map from path strings to file data, represented
as an association list.  `fsWrite` inserts or replaces, `fsChmod` models
`os.chmod` (the kernel keeps only the low permission bits of the given
mode), `fsMove` models `shutil.move` onto the same filesystem
(`os.rename`: the source entry, mode included, replaces any destination
entry). -/

/-- Content bytes and permission mode of one file. -/
structure FileData where
  content : List Nat
  mode : Nat
deriving Repr, DecidableEq

/-- A filesystem: an association list from paths to file data. -/
abbrev FS := List (String × FileData)

/-- Look up the data stored at a path. -/
def fsLookup : FS → String → Option FileData
  | [], _ => none
  | (q, d) :: rest, p => if q = p then some d else fsLookup rest p

/-- Embedding of `os.path.exists`. -/
def fsExists (fs : FS) (p : String) : Bool := (fsLookup fs p).isSome

/-- Remove the entry at a path (`os.unlink` / `NamedTemporaryFile` delete). -/
def fsRemove : FS → String → FS
  | [], _ => []
  | (q, d) :: rest, p => if q = p then fsRemove rest p else (q, d) :: fsRemove rest p

/-- Create or replace the file at a path. -/
def fsWrite (fs : FS) (p : String) (d : FileData) : FS := (p, d) :: fsRemove fs p

/-- Embedding of `os.chmod path m`: the file keeps its content and gets
permission bits `m % 0o10000` (the kernel masks the mode to its low
bits). -/
def fsChmod : FS → String → Nat → FS
  | [], _, _ => []
  | (q, d) :: rest, p, m =>
      if q = p then (q, FileData.mk d.content (m % 0o10000)) :: fsChmod rest p m
      else (q, d) :: fsChmod rest p m

/-- Embedding of `shutil.move src dst` within one directory: `os.rename`,
which deletes `src` and installs its data (mode included) at `dst`,
overwriting any existing entry. -/
def fsMove (fs : FS) (src dst : String) : FS :=
  match fsLookup fs src with
  | none => fs
  | some d => fsWrite (fsRemove fs src) dst d

/-! ## The `rewrite` context manager (`utils.py` lines 174-202)

`rewrite(filepath)` computes the target's directory and base name, creates
a `NamedTemporaryFile(prefix=f".{filename}.", delete=False, dir=base_dir)`,
yields it to the caller's `with` body, and on normal exit of the body
moves the temporary file onto the target after an `os.chmod(tmp, 0o100644)`
— unless the temporary file no longer exists, in which case it returns
without touching the target.  If the body raises, the exception propagates
through the `yield` and the chmod/move lines are skipped.

The caller's body is modelled by its effect on the temporary file handed
to it: the content it writes, whether it unlinked the temporary file
before scope exit, and whether it exited normally or raised.
`tempfile` creates the file with mode `0o600`; the creation mode is kept
as a parameter so that theorems can quantify over it. -/

/-- How the caller's `with` body exits: normal completion or a raised
exception (error or cancellation). -/
inductive ScopeExit where
  | normal
  | raised
deriving Repr, DecidableEq

/-- Effect of the caller's body on the temporary file. -/
structure BodyAction where
  exit : ScopeExit
  deleteTemp : Bool
  tempContent : List Nat
deriving Repr

/-- Name of the temporary file: `"." + filename + "." + rand`, from
`NamedTemporaryFile(prefix=f".{filename}.")` with random tail `rand`. -/
def tempName (filename rand : String) : String := "." ++ filename ++ "." ++ rand

/-- Full path of the temporary file: `tempfile` joins its `dir` argument
(the target's directory) with the generated name. -/
def tempPath (filepath rand : String) : String :=
  posixJoin (dirname filepath) (tempName (basename filepath) rand)

/-- Filesystem state after `NamedTemporaryFile` creation and the caller's
body: the temporary file is created empty with the creation mode, the body
writes its content through the handle, and optionally unlinks it. -/
def rewriteBodyState (fs : FS) (filepath rand : String) (createMode : Nat)
    (act : BodyAction) : FS :=
  let tmp := tempPath filepath rand
  let fs1 := fsWrite fs tmp (FileData.mk [] createMode)
  let fs2 := fsWrite fs1 tmp (FileData.mk act.tempContent createMode)
  if act.deleteTemp then fsRemove fs2 tmp else fs2

/-- Embedding of the `rewrite` context manager around one use: run the
body, then — only on normal exit and only if the temporary file still
exists — `os.chmod(tmp, 0o100644)` followed by `shutil.move(tmp, filepath)`.
A raised body propagates before those lines run. -/
def rewrite (fs : FS) (filepath rand : String) (createMode : Nat)
    (act : BodyAction) : FS :=
  let tmp := tempPath filepath rand
  let fs2 := rewriteBodyState fs filepath rand createMode act
  if act.exit = ScopeExit.raised then fs2
  else if fsExists fs2 tmp then
    fsMove (fsChmod fs2 tmp 0o100644) tmp filepath
  else fs2

/-! ## Basic lookup lemmas for the filesystem model -/

theorem fsLookup_fsRemove (fs : FS) (p q : String) :
    fsLookup (fsRemove fs p) q = if q = p then none else fsLookup fs q := by
  induction fs with
  | nil => simp [fsRemove, fsLookup]
  | cons e rest ih =>
      obtain ⟨k, d⟩ := e
      simp only [fsRemove, fsLookup]
      split_ifs with h1 h2 h3 <;> simp_all [fsLookup]

theorem fsLookup_fsWrite (fs : FS) (p q : String) (d : FileData) :
    fsLookup (fsWrite fs p d) q = if q = p then some d else fsLookup fs q := by
  simp only [fsWrite, fsLookup, fsLookup_fsRemove]
  split_ifs with h1 h2 h3 <;> simp_all

theorem fsLookup_fsChmod (fs : FS) (p q : String) (m : Nat) :
    fsLookup (fsChmod fs p m) q =
      if q = p then
        (fsLookup fs p).map (fun d => FileData.mk d.content (m % 0o10000))
      else fsLookup fs q := by
  induction fs with
  | nil => simp [fsChmod, fsLookup]
  | cons e rest ih =>
      obtain ⟨k, d⟩ := e
      simp only [fsChmod, fsLookup]
      split_ifs with h1 h2 h3 <;> simp_all [fsLookup]

theorem fsLookup_rewriteBodyState_ne (fs : FS) (filepath rand : String)
    (createMode : Nat) (act : BodyAction) (q : String)
    (hq : q ≠ tempPath filepath rand) :
    fsLookup (rewriteBodyState fs filepath rand createMode act) q = fsLookup fs q := by
  unfold rewriteBodyState
  by_cases hd : act.deleteTemp <;>
    simp [hd, fsLookup_fsRemove, fsLookup_fsWrite, hq]

theorem fsExists_rewriteBodyState_keep (fs : FS) (filepath rand : String)
    (createMode : Nat) (act : BodyAction) (hd : act.deleteTemp = false) :
    fsLookup (rewriteBodyState fs filepath rand createMode act) (tempPath filepath rand)
      = some (FileData.mk act.tempContent createMode) := by
  unfold rewriteBodyState
  simp [hd, fsLookup_fsWrite]

theorem fsExists_rewriteBodyState_del (fs : FS) (filepath rand : String)
    (createMode : Nat) (act : BodyAction) (hd : act.deleteTemp = true) :
    fsLookup (rewriteBodyState fs filepath rand createMode act) (tempPath filepath rand)
      = none := by
  unfold rewriteBodyState
  simp [hd, fsLookup_fsRemove]

/-- On a raised body or a caller-deleted temporary file, `rewrite` performs
no chmod and no move: the result is exactly the post-body state. -/
theorem rewrite_no_commit (fs : FS) (filepath rand : String) (createMode : Nat)
    (act : BodyAction) (h : act.exit = ScopeExit.raised ∨ act.deleteTemp = true) :
    rewrite fs filepath rand createMode act
      = rewriteBodyState fs filepath rand createMode act := by
  unfold rewrite
  rcases h with h | h
  · simp [h]
  · have hex : fsExists (rewriteBodyState fs filepath rand createMode act)
        (tempPath filepath rand) = false := by
      simp [fsExists, fsExists_rewriteBodyState_del fs filepath rand createMode act h]
    by_cases hx : act.exit = ScopeExit.raised <;> simp [hx, hex]

/-! ## Claims C1, C2, C4: commit, abandonment and frame behaviour of `rewrite` -/

/-- C1: when the `rewrite` scope exits normally with the temporary file still
present, the helper first chmods the temporary file to the fixed mode
`0o644` (`rw-r--r--`) regardless of its creation mode, and then moves it
onto the target path, overwriting any existing content: afterwards the
target holds the body's content under mode `0o644` and the temporary file
is gone, so the chmod took effect before the move became visible. -/
theorem rewrite_commit_chmod_and_move (fs : FS) (filepath rand : String)
    (createMode : Nat) (content : List Nat)
    (hne : tempPath filepath rand ≠ filepath) :
    fsLookup (rewrite fs filepath rand createMode
        (BodyAction.mk ScopeExit.normal false content)) filepath
      = some (FileData.mk content 0o644) ∧
    fsLookup (rewrite fs filepath rand createMode
        (BodyAction.mk ScopeExit.normal false content))
      (tempPath filepath rand) = none := by
  have hb : fsLookup (rewriteBodyState fs filepath rand createMode
      (BodyAction.mk ScopeExit.normal false content)) (tempPath filepath rand)
      = some (FileData.mk content createMode) :=
    fsExists_rewriteBodyState_keep fs filepath rand createMode _ rfl
  have hchmod : fsLookup (fsChmod (rewriteBodyState fs filepath rand createMode
        (BodyAction.mk ScopeExit.normal false content))
        (tempPath filepath rand) 0o100644) (tempPath filepath rand)
      = some (FileData.mk content 0o644) := by
    rw [fsLookup_fsChmod, if_pos rfl, hb]
    rfl
  have hres : rewrite fs filepath rand createMode
        (BodyAction.mk ScopeExit.normal false content)
      = fsWrite (fsRemove (fsChmod (rewriteBodyState fs filepath rand createMode
            (BodyAction.mk ScopeExit.normal false content))
            (tempPath filepath rand) 0o100644) (tempPath filepath rand)) filepath
          (FileData.mk content 0o644) := by
    unfold rewrite
    simp only [fsExists, hb, Option.isSome_some, if_true]
    rw [if_neg (show ¬ (ScopeExit.normal = ScopeExit.raised) from by decide)]
    unfold fsMove
    rw [hchmod]
  refine ⟨?_, ?_⟩
  · rw [hres, fsLookup_fsWrite, if_pos rfl]
  · rw [hres, fsLookup_fsWrite, if_neg hne, fsLookup_fsRemove, if_pos rfl]

theorem rewrite_commit_chmod_and_move_witness :
    tempPath "web/index.html" "abc123" ≠ "web/index.html" ∧
    (fsLookup (rewrite [] "web/index.html" "abc123" 0o600
        (BodyAction.mk ScopeExit.normal false [104, 105])) "web/index.html"
      = some (FileData.mk [104, 105] 0o644) ∧
     fsLookup (rewrite [] "web/index.html" "abc123" 0o600
        (BodyAction.mk ScopeExit.normal false [104, 105]))
        (tempPath "web/index.html" "abc123") = none) :=
  ⟨by decide, rewrite_commit_chmod_and_move [] "web/index.html" "abc123" 0o600
      [104, 105] (by decide)⟩

/-- C2: when the `rewrite` scope exits without the caller signaling
completion — the caller unlinked the temporary file, or the body raised —
the target path's entry (its content, or its absence) is exactly what it
was before the scope was entered. -/
theorem rewrite_abandon_target_unchanged (fs : FS) (filepath rand : String)
    (createMode : Nat) (act : BodyAction)
    (hne : tempPath filepath rand ≠ filepath)
    (h : act.deleteTemp = true ∨ act.exit = ScopeExit.raised) :
    fsLookup (rewrite fs filepath rand createMode act) filepath
      = fsLookup fs filepath := by
  rw [rewrite_no_commit fs filepath rand createMode act h.symm,
    fsLookup_rewriteBodyState_ne fs filepath rand createMode act filepath
      (Ne.symm hne)]

theorem rewrite_abandon_target_unchanged_witness :
    tempPath "web/index.html" "xyz42" ≠ "web/index.html" ∧
    ((BodyAction.mk ScopeExit.raised false [7]).deleteTemp = true ∨
      (BodyAction.mk ScopeExit.raised false [7]).exit = ScopeExit.raised) ∧
    fsLookup (rewrite [("web/index.html", FileData.mk [1, 2] 420)]
        "web/index.html" "xyz42" 0o600 (BodyAction.mk ScopeExit.raised false [7]))
        "web/index.html"
      = fsLookup [("web/index.html", FileData.mk [1, 2] 420)] "web/index.html" :=
  ⟨by decide, Or.inr rfl,
    rewrite_abandon_target_unchanged [("web/index.html", FileData.mk [1, 2] 420)]
      "web/index.html" "xyz42" 0o600 (BodyAction.mk ScopeExit.raised false [7])
      (by decide) (Or.inr rfl)⟩

/-- C4: when the scope exits by a caller error or cancellation (a raised
body), or when the caller already removed the temporary file, the move is
skipped entirely — the result is exactly the post-body state, no chmod or
move happens — and the target path is left untouched. -/
theorem rewrite_error_skips_move (fs : FS) (filepath rand : String)
    (createMode : Nat) (act : BodyAction)
    (hne : tempPath filepath rand ≠ filepath)
    (h : act.exit = ScopeExit.raised ∨ act.deleteTemp = true) :
    rewrite fs filepath rand createMode act
        = rewriteBodyState fs filepath rand createMode act ∧
    fsLookup (rewrite fs filepath rand createMode act) filepath
        = fsLookup fs filepath := by
  refine ⟨rewrite_no_commit fs filepath rand createMode act h, ?_⟩
  rw [rewrite_no_commit fs filepath rand createMode act h,
    fsLookup_rewriteBodyState_ne fs filepath rand createMode act filepath
      (Ne.symm hne)]

theorem rewrite_error_skips_move_witness :
    tempPath "a/b.txt" "r1" ≠ "a/b.txt" ∧
    ((BodyAction.mk ScopeExit.normal true [9]).exit = ScopeExit.raised ∨
      (BodyAction.mk ScopeExit.normal true [9]).deleteTemp = true) ∧
    (rewrite [("a/b.txt", FileData.mk [3] 420)] "a/b.txt" "r1" 0o600
        (BodyAction.mk ScopeExit.normal true [9])
      = rewriteBodyState [("a/b.txt", FileData.mk [3] 420)] "a/b.txt" "r1" 0o600
        (BodyAction.mk ScopeExit.normal true [9]) ∧
     fsLookup (rewrite [("a/b.txt", FileData.mk [3] 420)] "a/b.txt" "r1" 0o600
        (BodyAction.mk ScopeExit.normal true [9])) "a/b.txt"
      = fsLookup [("a/b.txt", FileData.mk [3] 420)] "a/b.txt") :=
  ⟨by decide, Or.inr rfl,
    rewrite_error_skips_move [("a/b.txt", FileData.mk [3] 420)] "a/b.txt" "r1" 0o600
      (BodyAction.mk ScopeExit.normal true [9]) (by decide) (Or.inr rfl)⟩

/-! ## Claim C3: naming and placement of the temporary file -/

theorem takeWhile_append_all {α : Type} (p : α → Bool) (l₁ l₂ : List α)
    (h : ∀ c ∈ l₁, p c = true) :
    List.takeWhile p (l₁ ++ l₂) = l₁ ++ List.takeWhile p l₂ := by
  induction l₁ with
  | nil => simp
  | cons a t ih =>
      simp only [List.cons_append, List.takeWhile_cons_of_pos (h a (by simp))]
      rw [ih (fun c hc => h c (by simp [hc]))]

theorem dropWhile_append_all {α : Type} (p : α → Bool) (l₁ l₂ : List α)
    (h : ∀ c ∈ l₁, p c = true) :
    List.dropWhile p (l₁ ++ l₂) = List.dropWhile p l₂ := by
  induction l₁ with
  | nil => simp
  | cons a t ih =>
      simp only [List.cons_append, List.dropWhile_cons_of_pos (h a (by simp))]
      exact ih (fun c hc => h c (by simp [hc]))

theorem takeWhile_all_id {α : Type} (p : α → Bool) (l : List α)
    (h : ∀ c ∈ l, p c = true) : List.takeWhile p l = l := by
  have := takeWhile_append_all p l [] h
  simpa using this

theorem dropWhile_all_nil {α : Type} (p : α → Bool) (l : List α)
    (h : ∀ c ∈ l, p c = true) : List.dropWhile p l = [] := by
  have := dropWhile_append_all p l [] h
  simpa using this

theorem head?_dropWhile_not {α : Type} (p : α → Bool) (l : List α) (x : α)
    (h : (List.dropWhile p l).head? = some x) : p x = false := by
  induction l with
  | nil => simp [List.dropWhile] at h
  | cons a t ih =>
      by_cases hpa : p a = true
      · rw [List.dropWhile_cons_of_pos hpa] at h
        exact ih h
      · rw [List.dropWhile_cons_of_neg hpa] at h
        simp only [List.head?] at h
        cases h
        simpa using hpa

theorem baseNameL_no_slash (l : List Char) :
    ∀ c ∈ baseNameL l, (c != '/') = true := by
  intro c hc
  rw [baseNameL, List.mem_reverse] at hc
  exact List.mem_takeWhile_imp (p := fun c => c != '/') hc

/-- Joining any directory prefix with a nonempty slash-free component
leaves exactly that component as the base name. -/
theorem baseNameL_joinL (a b : List Char) (hb : ∀ c ∈ b, (c != '/') = true)
    (hb0 : b ≠ []) : baseNameL (joinL a b) = b := by
  have hbr : ∀ c ∈ b.reverse, (c != '/') = true := fun c hc =>
    hb c (List.mem_reverse.mp hc)
  have hslash : ¬ ((('/' : Char) != '/') = true) := by decide
  have hhead : ¬ (b.head? = some '/') := by
    cases b with
    | nil => simp at hb0
    | cons x t =>
        have hx := hb x (by simp)
        simp only [List.head?, Option.some_inj]
        intro hcontra
        rw [hcontra] at hx
        exact hslash hx
  rw [joinL, if_neg hhead]
  by_cases hcase : a = [] ∨ a.getLast? = some '/'
  · rw [if_pos hcase]
    rcases hcase with h0 | hl
    · subst h0
      rw [List.nil_append, baseNameL, takeWhile_all_id _ _ hbr, List.reverse_reverse]
    · rw [baseNameL, List.reverse_append]
      cases har : a.reverse with
      | nil =>
          rw [← List.head?_reverse, har] at hl
          simp at hl
      | cons x t =>
          have hx : x = '/' := by
            rw [← List.head?_reverse, har] at hl
            simpa using hl
          subst hx
          rw [takeWhile_append_all _ _ _ hbr,
            List.takeWhile_cons_of_neg (p := fun c => c != '/') hslash,
            List.append_nil, List.reverse_reverse]
  · rw [if_neg hcase]
    rw [baseNameL, List.reverse_append, List.reverse_cons, List.append_assoc,
      List.singleton_append, takeWhile_append_all _ _ _ hbr,
      List.takeWhile_cons_of_neg (p := fun c => c != '/') hslash,
      List.append_nil, List.reverse_reverse]

/-- Joining a directory-shaped prefix (one that ends in a slash only when
it consists entirely of slashes, as `dirNameL` outputs do) with a nonempty
slash-free component leaves exactly that prefix as the directory name. -/
theorem dirNameL_joinL (a b : List Char) (hb : ∀ c ∈ b, (c != '/') = true)
    (hb0 : b ≠ []) (ha : a.getLast? = some '/' → ∀ c ∈ a, (c == '/') = true) :
    dirNameL (joinL a b) = a := by
  have hbr : ∀ c ∈ b.reverse, (c != '/') = true := fun c hc =>
    hb c (List.mem_reverse.mp hc)
  have hslash : ¬ ((('/' : Char) != '/') = true) := by decide
  have hhead : ¬ (b.head? = some '/') := by
    cases b with
    | nil => simp at hb0
    | cons x t =>
        have hx := hb x (by simp)
        simp only [List.head?, Option.some_inj]
        intro hcontra
        rw [hcontra] at hx
        exact hslash hx
  rw [joinL, if_neg hhead]
  by_cases hempty : a = []
  · rw [if_pos (Or.inl hempty)]
    subst hempty
    rw [List.nil_append, dirNameL, headPartL,
      dropWhile_all_nil _ _ hbr, List.reverse_nil, if_pos (by simp)]
  · by_cases hlast : a.getLast? = some '/'
    · rw [if_pos (Or.inr hlast)]
      have hall := ha hlast
      cases har : a.reverse with
      | nil =>
          exfalso
          apply hempty
          have := congrArg List.reverse har
          simpa using this
      | cons x t =>
          have hx : x = '/' := by
            rw [← List.head?_reverse, har] at hlast
            simpa using hlast
          subst hx
          rw [dirNameL, headPartL, List.reverse_append,
            dropWhile_append_all _ _ _ hbr, har,
            List.dropWhile_cons_of_neg (p := fun c => c != '/') hslash,
            ← har, List.reverse_reverse,
            if_pos (List.all_eq_true.mpr hall)]
    · rw [if_neg (by tauto)]
      cases har : a.reverse with
      | nil =>
          exfalso
          apply hempty
          have := congrArg List.reverse har
          simpa using this
      | cons x t =>
          have hx : ¬ (x = '/') := by
            intro hcontra
            apply hlast
            rw [← List.head?_reverse, har, hcontra]
            rfl
          have hhd : headPartL (a ++ '/' :: b) = a ++ ['/'] := by
            rw [headPartL, List.reverse_append, List.reverse_cons, List.append_assoc,
              List.singleton_append, dropWhile_append_all _ _ _ hbr,
              List.dropWhile_cons_of_neg (p := fun c => c != '/') hslash]
            simp
          have hnotall : ¬ ((a ++ ['/']).all (fun c => c == '/') = true) := by
            intro hall
            apply hlast
            have hxa : x ∈ a := by
              rw [← List.mem_reverse, har]
              simp
            have := (List.all_eq_true.mp hall) x (by simp [hxa])
            exact absurd (by simpa using this) hx
          rw [dirNameL, hhd, if_neg hnotall, rstripSlashL, List.reverse_append]
          simp only [List.reverse_cons, List.reverse_nil, List.nil_append,
            List.singleton_append]
          rw [List.dropWhile_cons_of_pos (p := fun c => c == '/') (by decide), har,
            List.dropWhile_cons_of_neg (p := fun c => c == '/') (by simpa using hx),
            ← har, List.reverse_reverse]

/-- Directory names produced by `dirNameL` end in a slash only when they
consist entirely of slashes. -/
theorem dirNameL_ok (l : List Char) :
    (dirNameL l).getLast? = some '/' → ∀ c ∈ dirNameL l, (c == '/') = true := by
  rw [dirNameL]
  by_cases hall : (headPartL l).all (fun c => c == '/') = true
  · rw [if_pos hall]
    intro _
    exact List.all_eq_true.mp hall
  · rw [if_neg hall]
    intro hlast
    exfalso
    rw [rstripSlashL, List.getLast?_eq_head?_reverse, List.reverse_reverse] at hlast
    have := head?_dropWhile_not _ _ _ hlast
    simp at this

theorem tempName_data (f rand : String) :
    (tempName f rand).data = '.' :: (f.data ++ '.' :: rand.data) := by
  rw [tempName, String.data_append, String.data_append, String.data_append]
  show ['.'] ++ f.data ++ ['.'] ++ rand.data = _
  simp

/-- C3: the temporary file lives in the same directory as the target and
its name is a leading dot, the target's base name, a dot, then the random
suffix; distinct suffixes give distinct temporary paths, so the name is
unique per random suffix. -/
theorem tempPath_same_dir_dot_name (p rand : String)
    (hrand : ∀ c ∈ rand.data, (c != '/') = true) :
    dirname (tempPath p rand) = dirname p ∧
    basename (tempPath p rand) = "." ++ basename p ++ "." ++ rand ∧
    (∀ rand2 : String, tempPath p rand = tempPath p rand2 → rand = rand2) := by
  have hbchars : ∀ c ∈ (tempName (basename p) rand).data, (c != '/') = true := by
    rw [tempName_data]
    intro c hc
    rcases List.mem_cons.mp hc with h | h
    · subst h; decide
    rcases List.mem_append.mp h with h | h
    · exact baseNameL_no_slash p.data c h
    rcases List.mem_cons.mp h with h | h
    · subst h; decide
    · exact hrand c h
  have hb0 : (tempName (basename p) rand).data ≠ [] := by
    rw [tempName_data]
    simp
  have hdata : (tempPath p rand).data
      = joinL (dirNameL p.data) ((tempName (basename p) rand).data) := rfl
  refine ⟨?_, ?_, ?_⟩
  · apply String.ext
    show dirNameL (tempPath p rand).data = dirNameL p.data
    rw [hdata]
    exact dirNameL_joinL _ _ hbchars hb0 (dirNameL_ok p.data)
  · apply String.ext
    show baseNameL (tempPath p rand).data = ("." ++ basename p ++ "." ++ rand).data
    rw [hdata]
    exact baseNameL_joinL _ _ hbchars hb0
  · intro rand2 heq
    have h2 : joinL (dirNameL p.data) ((tempName (basename p) rand).data)
        = joinL (dirNameL p.data) ((tempName (basename p) rand2).data) := by
      have h1 := congrArg String.data heq
      rw [hdata] at h1
      exact h1
    have hh1 : ¬ ((tempName (basename p) rand).data.head? = some '/') := by
      rw [tempName_data]
      simp
    have hh2 : ¬ ((tempName (basename p) rand2).data.head? = some '/') := by
      rw [tempName_data]
      simp
    rw [joinL, joinL, if_neg hh1, if_neg hh2] at h2
    have hbb : (tempName (basename p) rand).data
        = (tempName (basename p) rand2).data := by
      by_cases hcase : dirNameL p.data = [] ∨ (dirNameL p.data).getLast? = some '/'
      · rw [if_pos hcase, if_pos hcase] at h2
        exact List.append_cancel_left h2
      · rw [if_neg hcase, if_neg hcase] at h2
        have h3 := List.append_cancel_left h2
        injection h3
    rw [tempName_data, tempName_data] at hbb
    injection hbb with _ h4
    have h5 := List.append_cancel_left h4
    injection h5 with _ h6
    exact String.ext h6

theorem tempPath_same_dir_dot_name_witness :
    (∀ c ∈ ("abc123" : String).data, (c != '/') = true) ∧
    (dirname (tempPath "web/index.html" "abc123") = dirname "web/index.html" ∧
     basename (tempPath "web/index.html" "abc123")
       = "." ++ basename "web/index.html" ++ "." ++ "abc123" ∧
     (∀ rand2 : String,
        tempPath "web/index.html" "abc123" = tempPath "web/index.html" rand2 →
        "abc123" = rand2)) :=
  ⟨by decide, tempPath_same_dir_dot_name "web/index.html" "abc123" (by decide)⟩

/-! ## Claim C5: `unlink_parent_dir` (`utils.py` lines 212-222)

`unlink_parent_dir(path)` unlinks the file (a missing file raises and
propagates), then tries `parent_path.rmdir()` and swallows any `OSError`
from it.  The model keeps the existing file paths and directory paths. -/

/-- Filesystem state for `unlink_parent_dir`: the existing file paths and
the existing directory paths. -/
structure DFS where
  files : List String
  dirs : List String
deriving Repr, DecidableEq

/-- A directory is empty when no file and no other directory lies directly
inside it. -/
def dirIsEmpty (fs : DFS) (d : String) : Bool :=
  fs.files.all (fun f => !(dirname f == d)) &&
  fs.dirs.all (fun s => s == d || !(dirname s == d))

/-- Embedding of `Path.rmdir`: fails with an `OSError` when the directory
is missing or not empty, otherwise removes it. -/
def rmdir (fs : DFS) (d : String) : Except String DFS :=
  if d ∈ fs.dirs then
    if dirIsEmpty fs d then Except.ok (DFS.mk fs.files (fs.dirs.erase d))
    else Except.error "ENOTEMPTY"
  else Except.error "ENOENT"

/-- Embedding of `unlink_parent_dir`: `path.unlink()` — a missing file
raises and propagates — then `parent_path.rmdir()` inside
`try/except OSError`, so a failed directory removal is swallowed. -/
def unlink_parent_dir (fs : DFS) (p : String) : Except String DFS :=
  if p ∈ fs.files then
    let fs1 := DFS.mk (fs.files.erase p) fs.dirs
    match rmdir fs1 (dirname p) with
    | Except.ok fs2 => Except.ok fs2
    | Except.error _ => Except.ok fs1
  else Except.error "FileNotFoundError"

/-- C5: unlinking the last file of an otherwise-empty directory removes
the file and its now-empty parent directory; when the parent still holds
other entries, only the file is removed and the parent-removal failure is
swallowed — the call succeeds either way. -/
theorem unlink_parent_dir_spec (fs : DFS) (p : String)
    (hp : p ∈ fs.files) (hd : dirname p ∈ fs.dirs) :
    (dirIsEmpty (DFS.mk (fs.files.erase p) fs.dirs) (dirname p) = true →
      unlink_parent_dir fs p
        = Except.ok (DFS.mk (fs.files.erase p) (fs.dirs.erase (dirname p)))) ∧
    (dirIsEmpty (DFS.mk (fs.files.erase p) fs.dirs) (dirname p) = false →
      unlink_parent_dir fs p = Except.ok (DFS.mk (fs.files.erase p) fs.dirs)) := by
  constructor
  · intro hemp
    simp [unlink_parent_dir, rmdir, hp, hd, hemp]
  · intro hemp
    simp [unlink_parent_dir, rmdir, hp, hd, hemp]

theorem unlink_parent_dir_spec_witness :
    ("d/a.txt" ∈ (DFS.mk ["d/a.txt", "d/b.txt"] ["d"]).files ∧
      dirname "d/a.txt" ∈ (DFS.mk ["d/a.txt", "d/b.txt"] ["d"]).dirs) ∧
    ((dirIsEmpty (DFS.mk ((DFS.mk ["d/a.txt", "d/b.txt"] ["d"]).files.erase "d/a.txt")
          (DFS.mk ["d/a.txt", "d/b.txt"] ["d"]).dirs) (dirname "d/a.txt") = true →
        unlink_parent_dir (DFS.mk ["d/a.txt", "d/b.txt"] ["d"]) "d/a.txt"
          = Except.ok (DFS.mk ((DFS.mk ["d/a.txt", "d/b.txt"] ["d"]).files.erase "d/a.txt")
              ((DFS.mk ["d/a.txt", "d/b.txt"] ["d"]).dirs.erase (dirname "d/a.txt")))) ∧
      (dirIsEmpty (DFS.mk ((DFS.mk ["d/a.txt", "d/b.txt"] ["d"]).files.erase "d/a.txt")
          (DFS.mk ["d/a.txt", "d/b.txt"] ["d"]).dirs) (dirname "d/a.txt") = false →
        unlink_parent_dir (DFS.mk ["d/a.txt", "d/b.txt"] ["d"]) "d/a.txt"
          = Except.ok (DFS.mk ((DFS.mk ["d/a.txt", "d/b.txt"] ["d"]).files.erase "d/a.txt")
              (DFS.mk ["d/a.txt", "d/b.txt"] ["d"]).dirs))) :=
  ⟨⟨by decide, by decide⟩,
    unlink_parent_dir_spec (DFS.mk ["d/a.txt", "d/b.txt"] ["d"]) "d/a.txt"
      (by decide) (by decide)⟩

/-! ## Claim C6: line iteration via `AIOBase.__anext__` (`abc/io.py` lines 24-32) -/

/-- Abstract readline-capable stream: `readline` returns the next chunk
and the advanced stream state.  `AIOBase` leaves `readline` abstract, so
any implementation fits this shape. -/
structure StreamModel (σ : Type) where
  readline : σ → List Char × σ

/-- Embedding of `AIOBase.__anext__`: call `readline`; an empty result
raises `StopAsyncIteration` (here `none`), a non-empty result is the
yielded line. -/
def anext {σ : Type} (m : StreamModel σ) (s : σ) : Option (List Char × σ) :=
  let r := m.readline s
  if r.1 = [] then none else some r

/-- Asynchronous for-loop over the stream driven by `__anext__`, with
explicit step fuel. -/
def iterLines {σ : Type} (m : StreamModel σ) : Nat → σ → List (List Char)
  | 0, _ => []
  | n + 1, s =>
      match anext m s with
      | none => []
      | some (l, s2) => l :: iterLines m n s2

/-- The first `n` successive raw `readline` results of a stream. -/
def rawReads {σ : Type} (m : StreamModel σ) : Nat → σ → List (List Char)
  | 0, _ => []
  | n + 1, s => (m.readline s).1 :: rawReads m n (m.readline s).2

/-- Modelled from the spec: a concrete `AsyncByteStream` over in-memory
content with a cursor, whose `readline` does line-delimited reads and
returns an empty result at end-of-stream (spec sections 4.2 and 8); the
shown source fixes only the abstract `AIOBase`, no concrete backend. -/
structure ByteStream where
  content : List Char
  pos : Nat
deriving Repr, DecidableEq

/-- One line starting here: characters up to and including the first
newline, or everything that remains. -/
def takeLine : List Char → List Char
  | [] => []
  | c :: cs => if c = '\n' then [c] else c :: takeLine cs

/-- Modelled from the spec: `readline` of the in-memory byte stream. -/
def byteReadline (s : ByteStream) : List Char × ByteStream :=
  let line := takeLine (s.content.drop s.pos)
  (line, ByteStream.mk s.content (s.pos + line.length))

/-- The in-memory byte stream as a `StreamModel`. -/
def byteStreamModel : StreamModel ByteStream := StreamModel.mk byteReadline

theorem iterLines_eq_takeWhile {σ : Type} (m : StreamModel σ) (n : Nat) (s : σ) :
    iterLines m n s = (rawReads m n s).takeWhile (fun l => !l.isEmpty) := by
  induction n generalizing s with
  | zero => rfl
  | succ n ih =>
      rw [iterLines, rawReads, anext]
      rcases hr : m.readline s with ⟨l, s2⟩
      dsimp only
      by_cases hl : l = []
      · rw [if_pos hl, hl]
        rfl
      · rw [if_neg hl]
        have hpos : (!l.isEmpty) = true := by
          simpa [List.isEmpty_iff] using hl
        rw [List.takeWhile_cons_of_pos (p := fun t : List Char => !t.isEmpty) hpos]
        show l :: iterLines m n s2
          = l :: List.takeWhile (fun t => !t.isEmpty) (rawReads m n s2)
        rw [ih]

theorem iterLines_stable {σ : Type} (m : StreamModel σ) (n extra : Nat) (s : σ)
    (hstop : [] ∈ rawReads m n s) :
    iterLines m (n + extra) s = iterLines m n s := by
  induction n generalizing s with
  | zero => simp [rawReads] at hstop
  | succ n ih =>
      have hsucc : n + 1 + extra = (n + extra) + 1 := by omega
      rw [hsucc, iterLines, iterLines, anext]
      rw [rawReads, List.mem_cons] at hstop
      rcases hr : m.readline s with ⟨l, s2⟩
      rw [hr] at hstop
      dsimp only
      dsimp only at hstop
      by_cases hl : l = []
      · rw [if_pos hl]
      · rw [if_neg hl]
        rcases hstop with h | h
        · exact absurd h.symm hl
        · show l :: iterLines m (n + extra) s2 = l :: iterLines m n s2
          rw [ih _ h]

/-- C6: iterating via `__anext__` yields exactly the successive non-empty
`readline` results, in order (the longest non-empty prefix of the raw
reads); once `readline` has returned an empty result within the fuel the
iteration has terminated — extra fuel changes nothing; and iterating an
in-memory byte stream over `"a\nb\nc"` yields exactly
`["a\n", "b\n", "c"]`. -/
theorem anext_iteration (σ : Type) (m : StreamModel σ) (n extra : Nat) (s : σ)
    (hstop : [] ∈ rawReads m n s) :
    iterLines m n s = (rawReads m n s).takeWhile (fun l => !l.isEmpty) ∧
    iterLines m (n + extra) s = iterLines m n s ∧
    iterLines byteStreamModel 4 (ByteStream.mk ("a\nb\nc").data 0)
      = [("a\n").data, ("b\n").data, ("c").data] :=
  ⟨iterLines_eq_takeWhile m n s, iterLines_stable m n extra s hstop, by decide⟩

theorem anext_iteration_witness :
    [] ∈ rawReads byteStreamModel 4 (ByteStream.mk ("a\nb\nc").data 0) ∧
    (iterLines byteStreamModel 4 (ByteStream.mk ("a\nb\nc").data 0)
        = (rawReads byteStreamModel 4 (ByteStream.mk ("a\nb\nc").data 0)).takeWhile
            (fun l => !l.isEmpty) ∧
     iterLines byteStreamModel (4 + 3) (ByteStream.mk ("a\nb\nc").data 0)
        = iterLines byteStreamModel 4 (ByteStream.mk ("a\nb\nc").data 0) ∧
     iterLines byteStreamModel 4 (ByteStream.mk ("a\nb\nc").data 0)
        = [("a\n").data, ("b\n").data, ("c").data]) :=
  ⟨by decide,
    anext_iteration ByteStream byteStreamModel 4 3 (ByteStream.mk ("a\nb\nc").data 0)
      (by decide)⟩

/-! ## Claim C7: `BaseFileLock` as a scoped resource (`abc/filelock.py` lines 12-17) -/

/-- Observable lock operations. -/
inductive LockEvent where
  | acquire
  | release
deriving Repr, DecidableEq

/-- Embedding of `BaseFileLock.__aenter__`: a single `await self.acquire()`. -/
def aenterEvents : List LockEvent := [LockEvent.acquire]

/-- Embedding of `BaseFileLock.__aexit__`: a single `await self.release()`. -/
def aexitEvents : List LockEvent := [LockEvent.release]

/-- An `async with` block over the lock: `__aenter__` runs first, the body
runs with its own lock events, and `__aexit__` runs whether the body
completed normally or raised. -/
def withLock (body : List LockEvent) (e : ScopeExit) : List LockEvent :=
  match e with
  | ScopeExit.normal => aenterEvents ++ body ++ aexitEvents
  | ScopeExit.raised => aenterEvents ++ body ++ aexitEvents

/-- C7: entering the scope emits exactly one `acquire` (the single entry
event before the body), and every exit path — normal completion or a
raised body — ends the trace with a `release`. -/
theorem lock_scope_acquire_release (body : List LockEvent) (e : ScopeExit) :
    withLock body e = LockEvent.acquire :: (body ++ [LockEvent.release]) ∧
    (withLock [] e).count LockEvent.acquire = 1 ∧
    (withLock body e).getLast? = some LockEvent.release := by
  cases e <;>
    refine ⟨by simp [withLock, aenterEvents, aexitEvents], by decide, ?_⟩ <;>
    · show ((aenterEvents ++ body) ++ aexitEvents).getLast? = some LockEvent.release
      rw [aexitEvents, List.getLast?_concat]

/-! ## Claim C8: the `user_agent` identification string (`utils.py` lines 26-38) -/

/-- Embedding of `user_agent()`: the template
`"bandersnatch/{version} ({python}, {system})"` with the appended
`" (aiohttp {aiohttp.__version__})"`, where `python` is the implementation
name followed by a space and the dotted interpreter version, and `system`
is `uname.system`, a space, and `uname.machine`. -/
def user_agent (version pythonImpl pythonVer sysName machine aiohttpVer : String) :
    String :=
  "bandersnatch/" ++ version ++ " (" ++ (pythonImpl ++ " " ++ pythonVer) ++ ", "
    ++ (sysName ++ " " ++ machine) ++ ")" ++ " (aiohttp " ++ aiohttpVer ++ ")"

/-- Format claimed by the spec for the user-agent string:
`<product>/<version> (<runtime-id>, <os> <arch>)`, with the fields
themselves free of parentheses. -/
def specUserAgentFormat (s : String) : Prop :=
  ∃ product version runtime os arch : String,
    product.data.count '(' = 0 ∧ version.data.count '(' = 0 ∧
    runtime.data.count '(' = 0 ∧ os.data.count '(' = 0 ∧
    arch.data.count '(' = 0 ∧
    s = product ++ "/" ++ version ++ " (" ++ runtime ++ ", " ++ os ++ " "
        ++ arch ++ ")"

/-- Format of the amended claim: the same string followed by an extra
parenthesised `aiohttp` group. -/
def amendedUserAgentFormat (product version runtime os arch aio : String) : String :=
  product ++ "/" ++ version ++ " (" ++ runtime ++ ", " ++ os ++ " " ++ arch ++ ")"
    ++ " (aiohttp " ++ aio ++ ")"

/-- C8 counterexample: a concretely generated user-agent string contains
two opening parentheses, so it cannot be of the spec's claimed
single-group format `<product>/<version> (<runtime-id>, <os> <arch>)`
(whose strings contain exactly one, the fields being parenthesis-free):
the code appends an extra ` (aiohttp <version>)` group. -/
theorem user_agent_not_spec_format :
    ¬ specUserAgentFormat
        (user_agent "4.0.3" "cpython" "3.8.0-final0" "Linux" "x86_64" "3.7.4") := by
  intro h
  obtain ⟨p, v, r, o, a, hp, hv, hr, ho, ha, heq⟩ := h
  have hL : (user_agent "4.0.3" "cpython" "3.8.0-final0" "Linux"
      "x86_64" "3.7.4").data.count '(' = 2 := by decide
  rw [heq] at hL
  have c1 : ("/" : String).data.count '(' = 0 := by decide
  have c2 : (" (" : String).data.count '(' = 1 := by decide
  have c3 : (", " : String).data.count '(' = 0 := by decide
  have c4 : (" " : String).data.count '(' = 0 := by decide
  have c5 : (")" : String).data.count '(' = 0 := by decide
  simp only [String.data_append, List.count_append] at hL
  rw [hp, hv, hr, ho, ha, c1, c2, c3, c4, c5] at hL
  omega

/-- C8 amended: the generated identification string has the format
`<product>/<version> (<runtime-id>, <os> <arch>) (aiohttp <version>)` with
product `bandersnatch` and runtime id the implementation name plus its
version; it is a pure function of the process constants, computed once at
module import into `USER_AGENT` and reused unchanged. -/
theorem user_agent_amended_format
    (version pythonImpl pythonVer sysName machine aio : String) :
    user_agent version pythonImpl pythonVer sysName machine aio
      = amendedUserAgentFormat "bandersnatch" version
          (pythonImpl ++ " " ++ pythonVer) sysName machine aio := by
  have hsplit : ("bandersnatch/" : String).data
      = ("bandersnatch" : String).data ++ ("/" : String).data := by decide
  apply String.ext
  simp [user_agent, amendedUserAgentFormat, String.data_append, hsplit,
    List.append_assoc]

/-! ## Claim C9: `bandersnatch_safe_name` (`utils.py` lines 225-233, regex line 37)

`bandersnatch_safe_name(name)` is `SAFE_NAME_REGEX.sub("-", name).lower()`
with `SAFE_NAME_REGEX = re.compile(r"[^A-Za-z0-9.]+")`: every maximal run
of characters outside `[A-Za-z0-9.]` becomes a single `-`, then the result
is lower-cased. -/

/-- Characters of the regex class `[A-Za-z0-9.]`: ASCII letters, ASCII
digits and the dot. -/
def isSafeChar (c : Char) : Bool :=
  (65 ≤ c.toNat && c.toNat ≤ 90) || (97 ≤ c.toNat && c.toNat ≤ 122) ||
  (48 ≤ c.toNat && c.toNat ≤ 57) || c == '.'

/-- Embedding of `SAFE_NAME_REGEX.sub("-", name)`: copy safe characters
and replace each maximal run of unsafe ones by a single `-`; the flag
records whether the scan is inside such a run. -/
def subSafe : List Char → Bool → List Char
  | [], _ => []
  | c :: cs, inRun =>
      if isSafeChar c then c :: subSafe cs false
      else if inRun then subSafe cs true
      else '-' :: subSafe cs true

/-- Lower-casing of one character, as `str.lower()` acts on the ASCII
range (the substituted string contains only ASCII characters, on which
Python's `str.lower` and this map agree). -/
def lowerChar (c : Char) : Char :=
  if 65 ≤ c.toNat ∧ c.toNat ≤ 90 then Char.ofNat (c.toNat + 32) else c

/-- Embedding of `bandersnatch_safe_name`. -/
def bandersnatch_safe_name (name : String) : String :=
  String.mk ((subSafe name.data false).map lowerChar)

/-- Characters that may appear in an output: lowercase ASCII letters,
digits, dots and hyphens. -/
def isOutChar (c : Char) : Bool :=
  (97 ≤ c.toNat && c.toNat ≤ 122) || (48 ≤ c.toNat && c.toNat ≤ 57) ||
  c == '.' || c == '-'

/-- No two adjacent hyphens anywhere in the list. -/
def noDoubleDash : List Char → Bool
  | [] => true
  | [_] => true
  | c :: d :: rest => !(c == '-' && d == '-') && noDoubleDash (d :: rest)

theorem toNat_ofNat_valid (n : Nat) (h : n.isValidChar) :
    (Char.ofNat n).toNat = n := by
  rw [Char.ofNat, dif_pos h]
  rfl

theorem isSafeChar_ne_dash (c : Char) (hs : isSafeChar c = true) :
    (c == '-') = false := by
  apply beq_eq_false_iff_ne.mpr
  intro hcontra
  subst hcontra
  exact absurd hs (by decide)

theorem lowerChar_safe_ne_dash (c : Char) (hs : isSafeChar c = true) :
    (lowerChar c == '-') = false := by
  rw [lowerChar]
  by_cases hu : 65 ≤ c.toNat ∧ c.toNat ≤ 90
  · rw [if_pos hu]
    apply beq_eq_false_iff_ne.mpr
    intro hcontra
    have ht := toNat_ofNat_valid (c.toNat + 32) (Or.inl (by omega))
    rw [hcontra] at ht
    have hd : ('-' : Char).toNat = 45 := by decide
    omega
  · rw [if_neg hu]
    exact isSafeChar_ne_dash c hs

theorem lowerChar_dash_eq (c : Char) (h : (isSafeChar c || c == '-') = true) :
    (lowerChar c == '-') = (c == '-') := by
  rcases (Bool.or_eq_true _ _ ▸ h : _ ∨ _) with hs | hd
  · rw [lowerChar_safe_ne_dash c hs, isSafeChar_ne_dash c hs]
  · have hc : c = '-' := by simpa using hd
    subst hc
    decide

theorem isOutChar_lowerChar (c : Char) (h : (isSafeChar c || c == '-') = true) :
    isOutChar (lowerChar c) = true := by
  rw [lowerChar]
  by_cases hu : 65 ≤ c.toNat ∧ c.toNat ≤ 90
  · rw [if_pos hu]
    have ht := toNat_ofNat_valid (c.toNat + 32) (Or.inl (by omega))
    simp only [isOutChar, ht, Bool.or_eq_true, Bool.and_eq_true,
      decide_eq_true_eq]
    exact Or.inl (Or.inl (Or.inl ⟨by omega, by omega⟩))
  · rw [if_neg hu]
    rcases (Bool.or_eq_true _ _ ▸ h : _ ∨ _) with hs | hd
    · simp only [isSafeChar, Bool.or_eq_true, Bool.and_eq_true,
        decide_eq_true_eq, beq_iff_eq] at hs
      simp only [isOutChar, Bool.or_eq_true, Bool.and_eq_true,
        decide_eq_true_eq, beq_iff_eq]
      rcases hs with ((h1 | h2) | h3) | h4
      · exact absurd h1 hu
      · exact Or.inl (Or.inl (Or.inl h2))
      · exact Or.inl (Or.inl (Or.inr h3))
      · exact Or.inl (Or.inr h4)
    · have hc : c = '-' := by simpa using hd
      subst hc
      decide

theorem lowerChar_out_id (c : Char) (h : isOutChar c = true) :
    lowerChar c = c := by
  rw [lowerChar, if_neg]
  simp only [isOutChar, Bool.or_eq_true, Bool.and_eq_true,
    decide_eq_true_eq, beq_iff_eq] at h
  rcases h with ((h1 | h2) | h3) | h4
  · omega
  · omega
  · subst h3; decide
  · subst h4; decide

theorem subSafe_chars (l : List Char) (b : Bool) :
    ∀ c ∈ subSafe l b, (isSafeChar c || c == '-') = true := by
  induction l generalizing b with
  | nil => simp [subSafe]
  | cons a t ih =>
      intro c hc
      rw [subSafe] at hc
      by_cases hs : isSafeChar a = true
      · rw [if_pos hs] at hc
        rcases List.mem_cons.mp hc with h | h
        · subst h
          simp [hs]
        · exact ih false c h
      · rw [if_neg hs] at hc
        cases b with
        | true =>
            rw [if_pos rfl] at hc
            exact ih true c hc
        | false =>
            rw [if_neg (by simp)] at hc
            rcases List.mem_cons.mp hc with h | h
            · subst h
              decide
            · exact ih true c h

theorem noDD_cons_of_ne (a : Char) (l : List Char) (ha : (a == '-') = false)
    (hl : noDoubleDash l = true) : noDoubleDash (a :: l) = true := by
  cases l with
  | nil => rfl
  | cons d rest =>
      show (!(a == '-' && d == '-') && noDoubleDash (d :: rest)) = true
      rw [ha, hl]
      rfl

theorem noDD_cons_dash (l : List Char) (hl : noDoubleDash l = true)
    (hh : l.head? ≠ some '-') : noDoubleDash ('-' :: l) = true := by
  cases l with
  | nil => rfl
  | cons d rest =>
      have hd : (d == '-') = false := by
        apply beq_eq_false_iff_ne.mpr
        intro hcontra
        exact hh (by rw [hcontra]; rfl)
      show (!('-' == '-' && d == '-') && noDoubleDash (d :: rest)) = true
      rw [hd, hl]
      rfl

theorem noDD_tail (a : Char) (l : List Char)
    (h : noDoubleDash (a :: l) = true) : noDoubleDash l = true := by
  cases l with
  | nil => rfl
  | cons d rest =>
      have h2 : (!(a == '-' && d == '-') && noDoubleDash (d :: rest)) = true := h
      exact ((Bool.and_eq_true _ _ ▸ h2 : _ ∧ _)).2

theorem noDD_dash_head (l : List Char)
    (h : noDoubleDash ('-' :: l) = true) : l.head? ≠ some '-' := by
  cases l with
  | nil => simp
  | cons d rest =>
      have h2 : (!('-' == '-' && d == '-') && noDoubleDash (d :: rest)) = true := h
      have h3 := ((Bool.and_eq_true _ _ ▸ h2 : _ ∧ _)).1
      intro hcontra
      have hd : d = '-' := by simpa using hcontra
      subst hd
      simp at h3

theorem subSafe_noDD (l : List Char) :
    noDoubleDash (subSafe l false) = true ∧
    noDoubleDash (subSafe l true) = true ∧
    (subSafe l true).head? ≠ some '-' := by
  induction l with
  | nil => exact ⟨rfl, rfl, by simp [subSafe]⟩
  | cons a t ih =>
      by_cases hs : isSafeChar a = true
      · have hd := isSafeChar_ne_dash a hs
        have hcons : noDoubleDash (a :: subSafe t false) = true :=
          noDD_cons_of_ne a _ hd ih.1
        refine ⟨?_, ?_, ?_⟩
        · rw [subSafe, if_pos hs]
          exact hcons
        · rw [subSafe, if_pos hs]
          exact hcons
        · rw [subSafe, if_pos hs]
          intro hcontra
          have ha : a = '-' := by simpa using hcontra
          subst ha
          simp at hd
      · refine ⟨?_, ?_, ?_⟩
        · rw [subSafe, if_neg hs, if_neg (by simp)]
          exact noDD_cons_dash _ ih.2.1 ih.2.2
        · rw [subSafe, if_neg hs, if_pos rfl]
          exact ih.2.1
        · rw [subSafe, if_neg hs, if_pos rfl]
          exact ih.2.2

theorem map_lowerChar_noDD (l : List Char)
    (hall : ∀ c ∈ l, (isSafeChar c || c == '-') = true)
    (h : noDoubleDash l = true) : noDoubleDash (l.map lowerChar) = true := by
  induction l with
  | nil => rfl
  | cons c cs ih =>
      cases cs with
      | nil => rfl
      | cons d rest =>
          have h2 : (!(c == '-' && d == '-') && noDoubleDash (d :: rest)) = true := h
          obtain ⟨h3, h4⟩ := (Bool.and_eq_true _ _ ▸ h2 : _ ∧ _)
          have e1 := lowerChar_dash_eq c (hall c (by simp))
          have e2 := lowerChar_dash_eq d (hall d (by simp))
          have htail := ih (fun x hx => hall x (List.mem_cons_of_mem c hx)) h4
          show (!(lowerChar c == '-' && lowerChar d == '-')
              && noDoubleDash (lowerChar d :: rest.map lowerChar)) = true
          rw [e1, e2, h3]
          have : noDoubleDash (lowerChar d :: rest.map lowerChar) = true := htail
          rw [this]
          rfl

theorem out_not_safe_dash (c : Char) (ho : isOutChar c = true)
    (hs : ¬ isSafeChar c = true) : c = '-' := by
  simp only [isOutChar, Bool.or_eq_true, Bool.and_eq_true,
    decide_eq_true_eq, beq_iff_eq] at ho
  simp only [isSafeChar, Bool.or_eq_true, Bool.and_eq_true,
    decide_eq_true_eq, beq_iff_eq, not_or] at hs
  rcases ho with ((h1 | h2) | h3) | h4
  · exact absurd h1 hs.1.1.2
  · exact absurd h2 hs.1.2
  · exact absurd h3 hs.2
  · exact h4

theorem out_ne_dash_safe (c : Char) (ho : isOutChar c = true)
    (hd : ¬ (c = '-')) : isSafeChar c = true := by
  by_cases hs : isSafeChar c = true
  · exact hs
  · exact absurd (out_not_safe_dash c ho hs) hd

theorem subSafe_fixpoint (l : List Char) :
    (noDoubleDash l = true → (∀ c ∈ l, isOutChar c = true) →
      subSafe l false = l) ∧
    (noDoubleDash l = true → (∀ c ∈ l, isOutChar c = true) →
      l.head? ≠ some '-' → subSafe l true = l) := by
  induction l with
  | nil => exact ⟨fun _ _ => rfl, fun _ _ _ => rfl⟩
  | cons a t ih =>
      constructor
      · intro hdd hout
        by_cases hs : isSafeChar a = true
        · rw [subSafe, if_pos hs]
          rw [ih.1 (noDD_tail a t hdd) (fun c hc => hout c (List.mem_cons_of_mem a hc))]
        · have ha : a = '-' := out_not_safe_dash a (hout a (by simp)) hs
          subst ha
          rw [subSafe, if_neg hs, if_neg (by simp)]
          rw [ih.2 (noDD_tail _ t hdd)
            (fun c hc => hout c (List.mem_cons_of_mem _ hc))
            (noDD_dash_head t hdd)]
      · intro hdd hout hhead
        have ha : ¬ (a = '-') := fun h => hhead (by rw [h]; rfl)
        have hs : isSafeChar a = true := out_ne_dash_safe a (hout a (by simp)) ha
        rw [subSafe, if_pos hs]
        rw [ih.1 (noDD_tail a t hdd) (fun c hc => hout c (List.mem_cons_of_mem a hc))]

theorem map_id_of_forall {α : Type} (f : α → α) (l : List α)
    (h : ∀ c ∈ l, f c = c) : l.map f = l := by
  induction l with
  | nil => rfl
  | cons a t ih =>
      rw [List.map_cons, h a (by simp), ih (fun c hc => h c (List.mem_cons_of_mem a hc))]

/-- C9: `bandersnatch_safe_name` is idempotent, and its output consists
only of lowercase ASCII letters, digits, dots and hyphens, with no two
adjacent hyphens (each maximal run of other characters having become a
single hyphen). -/
theorem bandersnatch_safe_name_idem_out (s : String) :
    bandersnatch_safe_name (bandersnatch_safe_name s) = bandersnatch_safe_name s ∧
    (∀ c ∈ (bandersnatch_safe_name s).data, isOutChar c = true) ∧
    noDoubleDash (bandersnatch_safe_name s).data = true := by
  have hchars := subSafe_chars s.data false
  have hout : ∀ c ∈ (subSafe s.data false).map lowerChar, isOutChar c = true := by
    intro c hc
    rcases List.mem_map.mp hc with ⟨d, hd, rfl⟩
    exact isOutChar_lowerChar d (hchars d hd)
  have hdd : noDoubleDash ((subSafe s.data false).map lowerChar) = true :=
    map_lowerChar_noDD _ hchars (subSafe_noDD s.data).1
  refine ⟨?_, hout, hdd⟩
  apply String.ext
  show (subSafe ((subSafe s.data false).map lowerChar) false).map lowerChar
      = (subSafe s.data false).map lowerChar
  rw [(subSafe_fixpoint _).1 hdd hout]
  exact map_id_of_forall lowerChar _ (fun c hc => lowerChar_out_id c (hout c hc))

/-! ## Claim C10: `hash` (`utils.py` lines 141-149)

`hash(path, function)` builds a `hashlib` digest object and feeds it the
file's bytes in chunks of `128 * 1024`, then returns the hex digest.  The
digest object is abstracted as a state with an `update` operation — which,
as for every streaming hash, satisfies `update s (a ++ b) =
update (update s a) b` and `update s [] = s` — and a `hexdigest`
rendering. -/

/-- The read chunk size `128 * 1024`. -/
def CHUNK : Nat := 128 * 1024

/-- Split the file content as the read loop observes it: successive
`f.read(128 * 1024)` results, stopping at the empty read. -/
def chunksOf (l : List Nat) : List (List Nat) :=
  match l with
  | [] => []
  | c :: cs => (c :: cs).take CHUNK :: chunksOf ((c :: cs).drop CHUNK)
termination_by l.length
decreasing_by
  simp [CHUNK, List.length_drop]
  omega

/-- Embedding of `hash`: fold the digest update over the chunked reads and
render the final state with `hexdigest`. -/
def hash {σ : Type} (upd : σ → List Nat → σ) (init : σ) (hex : σ → String)
    (content : List Nat) : String :=
  hex ((chunksOf content).foldl upd init)

/-- Whole-content reference: a single `update` over all the bytes at
once. -/
def hashWhole {σ : Type} (upd : σ → List Nat → σ) (init : σ) (hex : σ → String)
    (content : List Nat) : String :=
  hex (upd init content)

theorem foldl_chunksOf {σ : Type} (upd : σ → List Nat → σ)
    (hnil : ∀ s, upd s [] = s)
    (happ : ∀ s a b, upd s (a ++ b) = upd (upd s a) b) (n : Nat) :
    ∀ l : List Nat, l.length ≤ n → ∀ s : σ,
      (chunksOf l).foldl upd s = upd s l := by
  induction n with
  | zero =>
      intro l hl s
      cases l with
      | nil =>
          rw [chunksOf]
          exact (hnil s).symm
      | cons c cs => simp at hl
  | succ n ih =>
      intro l hl s
      cases l with
      | nil =>
          rw [chunksOf]
          exact (hnil s).symm
      | cons c cs =>
          have hC : CHUNK = 131072 := rfl
          have hlen : ((c :: cs).drop CHUNK).length ≤ n := by
            rw [List.length_drop, List.length_cons]
            have hl2 : cs.length + 1 ≤ n + 1 := hl
            omega
          rw [chunksOf, List.foldl_cons,
            ih ((c :: cs).drop CHUNK) hlen (upd s ((c :: cs).take CHUNK)),
            ← happ, List.take_append_drop]

/-- C10: reading the content in 128 KiB chunks and updating the digest
incrementally returns the same hexadecimal digest string as hashing the
entire byte content in a single update, for every digest whose update
streams (is a fold over the bytes). -/
theorem hash_chunked_eq_whole (σ : Type) (upd : σ → List Nat → σ) (init : σ)
    (hex : σ → String) (content : List Nat)
    (hnil : ∀ s, upd s [] = s)
    (happ : ∀ s a b, upd s (a ++ b) = upd (upd s a) b) :
    hash upd init hex content = hashWhole upd init hex content := by
  rw [hash, hashWhole,
    foldl_chunksOf upd hnil happ content.length content le_rfl init]

theorem hash_chunked_eq_whole_witness :
    (∀ s : List Nat, s ++ [] = s) ∧
    (∀ s a b : List Nat, s ++ (a ++ b) = (s ++ a) ++ b) ∧
    hash (fun s c => s ++ c) [] (fun s => toString s.length) [1, 2, 3]
      = hashWhole (fun s c => s ++ c) [] (fun s => toString s.length) [1, 2, 3] :=
  ⟨fun s => List.append_nil s, fun s a b => (List.append_assoc s a b).symm,
    hash_chunked_eq_whole (List Nat) (fun s c => s ++ c) []
      (fun s => toString s.length) [1, 2, 3]
      (fun s => List.append_nil s) (fun s a b => (List.append_assoc s a b).symm)⟩

end Bandersnatch
